import Mathlib

/-!
# Per-face normals of a triangle mesh (`igl::per_face_normals`)

A shallow embedding of `include/igl/per_face_normals.cpp`.

* The scalar type `K` is the template's `Scalar`, read in exact arithmetic:
  a linearly ordered field.  The square root inside Eigen's `norm()` is
  library code, so it is a parameter `sqrt : K → K`; theorems that need it
  assume `ExactSqrt sqrt`.
* A vertex table is `V : Fin n → Vec3 K` and a face row holds three indices
  of type `Fin n`: reading a row outside the table is undefined in the
  source and is excluded by the type.
* The loop over faces writes row `i` of `N` from row `i` of `F` only, so a
  table of normals is the list of per-row results.
* `sum3` takes the addition it combines with as a parameter, so that the
  order in which the three operands are combined can be observed; the stable
  path itself instantiates it with the addition of `K`.
* `sum3Calls` and `sum3Fuel` are `sum3` with a counter of recursive
  invocations and with a bound on the depth of the call chain.
* A row of the stable path is an `Option`: the source divides by the norm
  without a test, and a division by zero has no value in exact arithmetic.
* Where a property holds in exact arithmetic only, its failure on a machine is
  shown with an inexact operation in place of the exact one: the saturating
  `satAdd` and `satArith` (with the fast path over an arbitrary `Arith`), and
  the underflowing `flushSqrt`.
-/

namespace Igl

/-! ## Three-component rows -/

/-- A row of three scalars (`Eigen::Matrix<Scalar,1,3>`). -/
@[ext]
structure Vec3 (K : Type) where
  x : K
  y : K
  z : K
deriving DecidableEq, Repr

namespace Vec3

variable {K : Type}

instance [Zero K] : Zero (Vec3 K) := ⟨⟨0, 0, 0⟩⟩

instance [Add K] : Add (Vec3 K) := ⟨fun a b => ⟨a.x + b.x, a.y + b.y, a.z + b.z⟩⟩

instance [Sub K] : Sub (Vec3 K) := ⟨fun a b => ⟨a.x - b.x, a.y - b.y, a.z - b.z⟩⟩

instance [Neg K] : Neg (Vec3 K) := ⟨fun a => ⟨-a.x, -a.y, -a.z⟩⟩

/-- Cross product `a.cross(b)` of two rows. -/
def cross [Mul K] [Sub K] (a b : Vec3 K) : Vec3 K :=
  ⟨a.y * b.z - a.z * b.y, a.z * b.x - a.x * b.z, a.x * b.y - a.y * b.x⟩

/-- Sum of the squared coefficients (`squaredNorm()`). -/
def squaredNorm [Mul K] [Add K] (a : Vec3 K) : K :=
  a.x * a.x + a.y * a.y + a.z * a.z

/-- Euclidean length `a.norm()`, the square root of `squaredNorm`. -/
def norm [Mul K] [Add K] (sqrt : K → K) (a : Vec3 K) : K :=
  sqrt (squaredNorm a)

/-- Coefficient-wise division by a scalar (`row /= r`). -/
def divScalar [Div K] (a : Vec3 K) (r : K) : Vec3 K :=
  ⟨a.x / r, a.y / r, a.z / r⟩

/-- Coefficient-wise product with a scalar. -/
def scale [Mul K] (t : K) (a : Vec3 K) : Vec3 K :=
  ⟨t * a.x, t * a.y, t * a.z⟩

/-- Coefficient `a(d)` for `d = 0, 1, 2`. -/
def coeff (a : Vec3 K) (d : Fin 3) : K :=
  match d with
  | 0 => a.x
  | 1 => a.y
  | 2 => a.z

end Vec3

/-! ## Tables -/

/-- One row of the face table: three indices into a vertex table of `n` rows. -/
structure Face (n : Nat) where
  i0 : Fin n
  i1 : Fin n
  i2 : Fin n
deriving DecidableEq, Repr

variable {K : Type} [LinearOrderedField K] {n : Nat}

/-- What exact arithmetic asks of the square root: on a non-negative argument
it returns the non-negative root. -/
def ExactSqrt (sqrt : K → K) : Prop :=
  ∀ x : K, 0 ≤ x → 0 ≤ sqrt x ∧ sqrt x * sqrt x = x

/-! ## Fast path: `per_face_normals(V,F,Z,N)` -/

/-- The value first stored in `N.row(i)`: `v1.cross(v2)` for
`v1 = V.row(F(i,1)) - V.row(F(i,0))` and `v2 = V.row(F(i,2)) - V.row(F(i,0))`. -/
def rawNormal (V : Fin n → Vec3 K) (f : Face n) : Vec3 K :=
  let v1 := V f.i1 - V f.i0
  let v2 := V f.i2 - V f.i0
  Vec3.cross v1 v2

/-- Body of the loop over faces for one row `i` with `f = F.row(i)`. -/
def faceNormal (sqrt : K → K) (V : Fin n → Vec3 K) (Z : Vec3 K) (f : Face n) : Vec3 K :=
  let N := rawNormal V f
  let r := Vec3.norm sqrt N
  if r = 0 then Z else Vec3.divScalar N r

/-- The four-argument `per_face_normals(V,F,Z,N)`; the result is the table `N`. -/
def per_face_normals (sqrt : K → K) (V : Fin n → Vec3 K) (F : List (Face n))
    (Z : Vec3 K) : List (Vec3 K) :=
  F.map (faceNormal sqrt V Z)

/-- The three-argument `per_face_normals(V,F,N)`: builds `Z(0,0,0)` and calls
the four-argument function. -/
def per_face_normals_default (sqrt : K → K) (V : Fin n → Vec3 K) (F : List (Face n)) :
    List (Vec3 K) :=
  let Z : Vec3 K := ⟨0, 0, 0⟩
  per_face_normals sqrt V F Z

/-! ## Stable path: `per_face_normals_stable(V,F,N)` -/

/-- Number of pairs of `(a, b, c)` in which the later operand is strictly
larger in absolute value; every recursive call of `sum3` lowers it. -/
def sum3Measure (a b c : K) : Nat :=
  (if |a| < |b| then 1 else 0) + (if |a| < |c| then 1 else 0) + (if |b| < |c| then 1 else 0)

/-- The recursive lambda `sum3`; `add` is the addition used in `(a+b)+c`. -/
def sum3 (add : K → K → K) (a b c : K) : K :=
  if _h1 : |c| > |a| then
    sum3 add c b a
  else if _h2 : |c| > |b| then
    sum3 add a c b
  else if _h3 : |b| > |a| then
    sum3 add b a c
  else
    add (add a b) c
termination_by sum3Measure a b c
decreasing_by
  all_goals simp only [sum3Measure, gt_iff_lt, not_lt] at *
  all_goals split_ifs <;> first | omega | (exfalso; linarith)

/-- The recursive lambda `sum3` instrumented with a counter: the number of
recursive invocations made before the base case `(a+b)+c` is reached. -/
def sum3Calls (a b c : K) : Nat :=
  if _h1 : |c| > |a| then
    sum3Calls c b a + 1
  else if _h2 : |c| > |b| then
    sum3Calls a c b + 1
  else if _h3 : |b| > |a| then
    sum3Calls b a c + 1
  else
    0
termination_by sum3Measure a b c
decreasing_by
  all_goals simp only [sum3Measure, gt_iff_lt, not_lt] at *
  all_goals split_ifs <;> first | omega | (exfalso; linarith)

/-- The recursive lambda `sum3` run with a bound on the depth of the call
chain: `fuel` counts the invocations still allowed, the outermost included,
and `none` means the bound was reached before the base case. -/
def sum3Fuel (add : K → K → K) : Nat → K → K → K → Option K
  | 0, _, _, _ => none
  | fuel + 1, a, b, c =>
    if |c| > |a| then
      sum3Fuel add fuel c b a
    else if |c| > |b| then
      sum3Fuel add fuel a c b
    else if |b| > |a| then
      sum3Fuel add fuel b a c
    else
      some (add (add a b) c)

/-- The three candidate normals `n0`, `n1`, `n2` of a face. -/
def candidates (V : Fin n → Vec3 K) (f : Face n) : Vec3 K × Vec3 K × Vec3 K :=
  let p0 := V f.i0
  let p1 := V f.i1
  let p2 := V f.i2
  let n0 := Vec3.cross (p1 - p0) (p2 - p0)
  let n1 := Vec3.cross (p2 - p1) (p0 - p1)
  let n2 := Vec3.cross (p0 - p2) (p1 - p2)
  (n0, n1, n2)

/-- Row `N.row(f)` after the careful sum over `d = 0, 1, 2` and before it is
divided by its norm. -/
def stableRaw (add : K → K → K) (V : Fin n → Vec3 K) (f : Face n) : Vec3 K :=
  let n0 := (candidates V f).1
  let n1 := (candidates V f).2.1
  let n2 := (candidates V f).2.2
  ⟨sum3 add (n0.coeff 0) (n1.coeff 0) (n2.coeff 0),
   sum3 add (n0.coeff 1) (n1.coeff 1) (n2.coeff 1),
   sum3 add (n0.coeff 2) (n1.coeff 2) (n2.coeff 2)⟩

/-- Body of the loop of the stable path for one face.  The source divides the
row by its norm without a test; a division by zero has no value in exact
arithmetic (the source stores NaN), which is `none` here. -/
def stableNormal (add : K → K → K) (sqrt : K → K) (V : Fin n → Vec3 K) (f : Face n) :
    Option (Vec3 K) :=
  let N := stableRaw add V f
  let r := Vec3.norm sqrt N
  if r = 0 then none else some (Vec3.divScalar N r)

/-- The function `per_face_normals_stable(V,F,N)`; the result is the table `N`. -/
def per_face_normals_stable (add : K → K → K) (sqrt : K → K) (V : Fin n → Vec3 K)
    (F : List (Face n)) : List (Option (Vec3 K)) :=
  F.map (stableNormal add sqrt V)

/-! ## Machine arithmetic -/

/-- The scalar operations the fast path uses, as a machine provides them. -/
structure Arith (K : Type) where
  add : K → K → K
  sub : K → K → K
  mul : K → K → K
  div : K → K → K
  sqrt : K → K

/-- The arithmetic of the field `K` itself, with the square root `sqrt`. -/
def exactArith (sqrt : K → K) : Arith K :=
  ⟨fun x y => x + y, fun x y => x - y, fun x y => x * y, fun x y => x / y, sqrt⟩

/-- Row difference `a - b` in the arithmetic `A`. -/
def Vec3.subWith (A : Arith K) (a b : Vec3 K) : Vec3 K :=
  ⟨A.sub a.x b.x, A.sub a.y b.y, A.sub a.z b.z⟩

/-- Cross product `a.cross(b)` in the arithmetic `A`. -/
def Vec3.crossWith (A : Arith K) (a b : Vec3 K) : Vec3 K :=
  ⟨A.sub (A.mul a.y b.z) (A.mul a.z b.y), A.sub (A.mul a.z b.x) (A.mul a.x b.z),
    A.sub (A.mul a.x b.y) (A.mul a.y b.x)⟩

/-- Length `a.norm()` in the arithmetic `A`. -/
def Vec3.normWith (A : Arith K) (a : Vec3 K) : K :=
  A.sqrt (A.add (A.add (A.mul a.x a.x) (A.mul a.y a.y)) (A.mul a.z a.z))

/-- Coefficient-wise division `row /= r` in the arithmetic `A`. -/
def Vec3.divScalarWith (A : Arith K) (a : Vec3 K) (r : K) : Vec3 K :=
  ⟨A.div a.x r, A.div a.y r, A.div a.z r⟩

/-- Body of the loop over faces of the fast path, computed in the arithmetic
`A`; the comparison `r == 0` is exact. -/
def faceNormalWith (A : Arith K) (V : Fin n → Vec3 K) (Z : Vec3 K) (f : Face n) : Vec3 K :=
  let v1 := Vec3.subWith A (V f.i1) (V f.i0)
  let v2 := Vec3.subWith A (V f.i2) (V f.i0)
  let N := Vec3.crossWith A v1 v2
  let r := Vec3.normWith A N
  if r = 0 then Z else Vec3.divScalarWith A N r

/-- The four-argument `per_face_normals(V,F,Z,N)` computed in the arithmetic
`A`. -/
def per_face_normals_arith (A : Arith K) (V : Fin n → Vec3 K) (F : List (Face n))
    (Z : Vec3 K) : List (Vec3 K) :=
  F.map (faceNormalWith A V Z)

/-! ## Vocabulary of the specification -/

/-- Follows the specification's words (section 4.1) for one face with vertices
`p0`, `p1`, `p2`: edge vectors `e1 = p1 - p0` and `e2 = p2 - p0`, raw normal
`r = e1 × e2`, `len = ‖r‖`; the result is `Z` when `len = 0` and `r / len`
otherwise. -/
def specFaceNormal (sqrt : K → K) (p0 p1 p2 Z : Vec3 K) : Vec3 K :=
  let e1 := p1 - p0
  let e2 := p2 - p0
  let r := Vec3.cross e1 e2
  let len := Vec3.norm sqrt r
  if len = 0 then Z else Vec3.divScalar r len

/-- Three points are collinear or coincident: all of them lie on one line
`o + t * d` (with `d = 0` when they coincide). -/
def Collinear (p0 p1 p2 : Vec3 K) : Prop :=
  ∃ (o d : Vec3 K) (t0 t1 t2 : K),
    p0 = o + Vec3.scale t0 d ∧ p1 = o + Vec3.scale t1 d ∧ p2 = o + Vec3.scale t2 d

/-- The triple `(x, y, z)` is a rearrangement of `(a, b, c)`. -/
def Perm3 (x y z a b c : K) : Prop :=
  (x = a ∧ y = b ∧ z = c) ∨ (x = a ∧ y = c ∧ z = b) ∨ (x = b ∧ y = a ∧ z = c) ∨
  (x = b ∧ y = c ∧ z = a) ∨ (x = c ∧ y = a ∧ z = b) ∨ (x = c ∧ y = b ∧ z = a)

instance (x y z a b c : K) : Decidable (Perm3 x y z a b c) := by
  unfold Perm3
  infer_instance

/-- The vertex table `V` with the offset `t` added to every row. -/
def translate (t : Vec3 K) (V : Fin n → Vec3 K) : Fin n → Vec3 K :=
  fun i => V i + t

/-- A machine addition that is not associative: the exact sum clamped to the
range `[-M, M]` (saturation, as on overflow). -/
def satAdd (M : K) (x y : K) : K :=
  max (-M) (min M (x + y))

/-! ## Sample inputs -/

/-- The vertex table `(0,0,0), (1,0,0), (0,1,0)`. -/
def triangleV (K : Type) [LinearOrderedField K] : Fin 3 → Vec3 K :=
  ![⟨0, 0, 0⟩, ⟨1, 0, 0⟩, ⟨0, 1, 0⟩]

/-- The vertex table `(0,0,0), (1,0,0), (2,0,0)` of three collinear points. -/
def collinearV (K : Type) [LinearOrderedField K] : Fin 3 → Vec3 K :=
  ![⟨0, 0, 0⟩, ⟨1, 0, 0⟩, ⟨2, 0, 0⟩]

/-- A table of four vertices whose first three rows are those of `triangleV`. -/
def extendedV (K : Type) [LinearOrderedField K] : Fin 4 → Vec3 K :=
  ![⟨0, 0, 0⟩, ⟨1, 0, 0⟩, ⟨0, 1, 0⟩, ⟨5, 5, 5⟩]

/-- The face `(0,1,2)` of a table of three vertices. -/
def face012 : Face 3 := ⟨0, 1, 2⟩

/-- The face `(0,2,1)`: `face012` with vertices 1 and 2 swapped. -/
def face021 : Face 3 := ⟨0, 2, 1⟩

/-! ## Algebra of rows -/

namespace Vec3

@[simp] theorem zero_x : (0 : Vec3 K).x = 0 := rfl
@[simp] theorem zero_y : (0 : Vec3 K).y = 0 := rfl
@[simp] theorem zero_z : (0 : Vec3 K).z = 0 := rfl
@[simp] theorem add_x (a b : Vec3 K) : (a + b).x = a.x + b.x := rfl
@[simp] theorem add_y (a b : Vec3 K) : (a + b).y = a.y + b.y := rfl
@[simp] theorem add_z (a b : Vec3 K) : (a + b).z = a.z + b.z := rfl
@[simp] theorem sub_x (a b : Vec3 K) : (a - b).x = a.x - b.x := rfl
@[simp] theorem sub_y (a b : Vec3 K) : (a - b).y = a.y - b.y := rfl
@[simp] theorem sub_z (a b : Vec3 K) : (a - b).z = a.z - b.z := rfl
@[simp] theorem neg_x (a : Vec3 K) : (-a).x = -a.x := rfl
@[simp] theorem neg_y (a : Vec3 K) : (-a).y = -a.y := rfl
@[simp] theorem neg_z (a : Vec3 K) : (-a).z = -a.z := rfl

theorem eq_zero_iff (a : Vec3 K) : a = 0 ↔ a.x = 0 ∧ a.y = 0 ∧ a.z = 0 := by
  constructor
  · rintro rfl; exact ⟨rfl, rfl, rfl⟩
  · rintro ⟨h1, h2, h3⟩; ext <;> assumption

theorem squaredNorm_nonneg (a : Vec3 K) : 0 ≤ squaredNorm a := by
  unfold squaredNorm
  nlinarith [mul_self_nonneg a.x, mul_self_nonneg a.y, mul_self_nonneg a.z]

theorem squaredNorm_eq_zero_iff (a : Vec3 K) : squaredNorm a = 0 ↔ a = 0 := by
  rw [eq_zero_iff]
  unfold squaredNorm
  constructor
  · intro h
    have hx := mul_self_nonneg a.x
    have hy := mul_self_nonneg a.y
    have hz := mul_self_nonneg a.z
    refine ⟨?_, ?_, ?_⟩ <;> apply mul_self_eq_zero.mp <;> linarith
  · rintro ⟨h1, h2, h3⟩; rw [h1, h2, h3]; ring

theorem cross_swap (a b : Vec3 K) : cross b a = -cross a b := by
  ext <;> simp [cross] <;> ring

theorem squaredNorm_neg (a : Vec3 K) : squaredNorm (-a) = squaredNorm a := by
  simp [squaredNorm]

theorem norm_neg (sqrt : K → K) (a : Vec3 K) : norm sqrt (-a) = norm sqrt a := by
  unfold norm; rw [squaredNorm_neg]

theorem divScalar_neg (a : Vec3 K) (r : K) : divScalar (-a) r = -divScalar a r := by
  ext <;> simp [divScalar, neg_div]

end Vec3

theorem ExactSqrt.eq_of_mul_self {sqrt : K → K} (hs : ExactSqrt sqrt) {x y : K}
    (hy : 0 ≤ y) (h : y * y = x) : sqrt x = y := by
  have hx : 0 ≤ x := h ▸ mul_self_nonneg y
  obtain ⟨h0, h1⟩ := hs x hx
  exact (mul_self_inj h0 hy).mp (h1.trans h.symm)

theorem ExactSqrt.sqrt_eq_zero_iff {sqrt : K → K} (hs : ExactSqrt sqrt) {x : K} (hx : 0 ≤ x) :
    sqrt x = 0 ↔ x = 0 := by
  constructor
  · intro h
    have := (hs x hx).2
    rw [h] at this; simpa using this.symm
  · rintro rfl
    exact hs.eq_of_mul_self le_rfl (by ring)

theorem ExactSqrt.one {sqrt : K → K} (hs : ExactSqrt sqrt) : sqrt 1 = 1 :=
  hs.eq_of_mul_self zero_le_one (by ring)

theorem norm_eq_zero_iff {sqrt : K → K} (hs : ExactSqrt sqrt) (a : Vec3 K) :
    Vec3.norm sqrt a = 0 ↔ a = 0 := by
  unfold Vec3.norm
  rw [hs.sqrt_eq_zero_iff (Vec3.squaredNorm_nonneg a), Vec3.squaredNorm_eq_zero_iff]

theorem norm_divScalar_norm {sqrt : K → K} (hs : ExactSqrt sqrt) {a : Vec3 K} (ha : a ≠ 0) :
    Vec3.norm sqrt (Vec3.divScalar a (Vec3.norm sqrt a)) = 1 := by
  have hr : Vec3.norm sqrt a ≠ 0 := fun h => ha ((norm_eq_zero_iff hs a).mp h)
  have hsq : Vec3.norm sqrt a * Vec3.norm sqrt a = Vec3.squaredNorm a :=
    (hs _ (Vec3.squaredNorm_nonneg a)).2
  have h1 : Vec3.squaredNorm (Vec3.divScalar a (Vec3.norm sqrt a)) = 1 := by
    have : Vec3.squaredNorm (Vec3.divScalar a (Vec3.norm sqrt a))
        = Vec3.squaredNorm a / (Vec3.norm sqrt a * Vec3.norm sqrt a) := by
      simp only [Vec3.squaredNorm, Vec3.divScalar]
      field_simp
    rw [this, hsq]
    exact div_self (fun h => ha ((Vec3.squaredNorm_eq_zero_iff a).mp h))
  unfold Vec3.norm at *
  rw [h1]; exact hs.one

theorem norm_scale {sqrt : K → K} (hs : ExactSqrt sqrt) {t : K} (ht : 0 ≤ t) (a : Vec3 K) :
    Vec3.norm sqrt (Vec3.scale t a) = t * Vec3.norm sqrt a := by
  unfold Vec3.norm
  obtain ⟨h0, h1⟩ := hs _ (Vec3.squaredNorm_nonneg a)
  apply hs.eq_of_mul_self (mul_nonneg ht h0)
  have : Vec3.squaredNorm (Vec3.scale t a) = t * t * Vec3.squaredNorm a := by
    simp only [Vec3.squaredNorm, Vec3.scale]; ring
  rw [this]; linear_combination (t * t) * h1

theorem candidates_eq (V : Fin n → Vec3 K) (f : Face n) :
    (candidates V f).2.1 = (candidates V f).1 ∧ (candidates V f).2.2 = (candidates V f).1 := by
  constructor <;> ext <;> simp [candidates, Vec3.cross] <;> ring

theorem rawNormal_swap (V : Fin n → Vec3 K) (i0 i1 i2 : Fin n) :
    rawNormal V ⟨i0, i2, i1⟩ = -rawNormal V ⟨i0, i1, i2⟩ := by
  simp only [rawNormal]; exact Vec3.cross_swap _ _

theorem cross_eq_zero_of_collinear {p0 p1 p2 : Vec3 K} (h : Collinear p0 p1 p2) :
    Vec3.cross (p1 - p0) (p2 - p0) = 0 := by
  obtain ⟨o, d, t0, t1, t2, rfl, rfl, rfl⟩ := h
  ext <;> simp [Vec3.cross, Vec3.scale] <;> ring

theorem parallel_of_cross_eq_zero {u w : Vec3 K} (h : Vec3.cross u w = 0) (hu : u ≠ 0) :
    ∃ t : K, w = Vec3.scale t u := by
  rw [Vec3.eq_zero_iff] at h
  simp only [Vec3.cross] at h
  obtain ⟨hx, hy, hz⟩ := h
  by_cases ex : u.x = 0
  · by_cases ey : u.y = 0
    · have ez : u.z ≠ 0 := fun e => hu ((Vec3.eq_zero_iff u).mpr ⟨ex, ey, e⟩)
      refine ⟨w.z / u.z, ?_⟩
      ext <;> simp only [Vec3.scale] <;> rw [div_mul_eq_mul_div, eq_div_iff ez]
      · linear_combination hy
      · linear_combination -hx
    · refine ⟨w.y / u.y, ?_⟩
      ext <;> simp only [Vec3.scale] <;> rw [div_mul_eq_mul_div, eq_div_iff ey]
      · linear_combination -hz
      · linear_combination hx
  · refine ⟨w.x / u.x, ?_⟩
    ext <;> simp only [Vec3.scale] <;> rw [div_mul_eq_mul_div, eq_div_iff ex]
    · linear_combination hz
    · linear_combination -hy

theorem collinear_of_cross_eq_zero {p0 p1 p2 : Vec3 K}
    (h : Vec3.cross (p1 - p0) (p2 - p0) = 0) : Collinear p0 p1 p2 := by
  by_cases h1 : p1 - p0 = 0
  · rw [Vec3.eq_zero_iff] at h1
    simp only [Vec3.sub_x, Vec3.sub_y, Vec3.sub_z] at h1
    obtain ⟨a1, a2, a3⟩ := h1
    refine ⟨p0, p2 - p0, 0, 0, 1, ?_, ?_, ?_⟩ <;> ext <;> simp [Vec3.scale] <;> linarith
  · obtain ⟨t, ht⟩ := parallel_of_cross_eq_zero h h1
    have hx := congrArg Vec3.x ht
    have hy := congrArg Vec3.y ht
    have hz := congrArg Vec3.z ht
    simp only [Vec3.scale, Vec3.sub_x, Vec3.sub_y, Vec3.sub_z] at hx hy hz
    refine ⟨p0, p1 - p0, 0, 1, t, ?_, ?_, ?_⟩ <;> ext <;> simp [Vec3.scale] <;> linarith

/-! ## The recursive sum -/

omit [LinearOrderedField K] in
theorem Perm3.swap_ac {x y z a b c : K} (h : Perm3 x y z c b a) : Perm3 x y z a b c := by
  rcases h with h | h | h | h | h | h <;> obtain ⟨rfl, rfl, rfl⟩ := h <;> simp [Perm3]

omit [LinearOrderedField K] in
theorem Perm3.swap_bc {x y z a b c : K} (h : Perm3 x y z a c b) : Perm3 x y z a b c := by
  rcases h with h | h | h | h | h | h <;> obtain ⟨rfl, rfl, rfl⟩ := h <;> simp [Perm3]

omit [LinearOrderedField K] in
theorem Perm3.swap_ab {x y z a b c : K} (h : Perm3 x y z b a c) : Perm3 x y z a b c := by
  rcases h with h | h | h | h | h | h <;> obtain ⟨rfl, rfl, rfl⟩ := h <;> simp [Perm3]

theorem sum3_descending (add : K → K → K) (a b c : K) :
    ∃ x y z : K, Perm3 x y z a b c ∧ |y| ≤ |x| ∧ |z| ≤ |y| ∧
      sum3 add a b c = add (add x y) z := by
  induction a, b, c using sum3.induct add with
  | case1 a b c h ih =>
    obtain ⟨x, y, z, hp, h1, h2, he⟩ := ih
    refine ⟨x, y, z, hp.swap_ac, h1, h2, ?_⟩
    rw [sum3, dif_pos h]; exact he
  | case2 a b c h h' ih =>
    obtain ⟨x, y, z, hp, h1, h2, he⟩ := ih
    refine ⟨x, y, z, hp.swap_bc, h1, h2, ?_⟩
    rw [sum3, dif_neg h, dif_pos h']; exact he
  | case3 a b c h h' h'' ih =>
    obtain ⟨x, y, z, hp, h1, h2, he⟩ := ih
    refine ⟨x, y, z, hp.swap_ab, h1, h2, ?_⟩
    rw [sum3, dif_neg h, dif_neg h', dif_pos h'']; exact he
  | case4 a b c h h' h'' =>
    refine ⟨a, b, c, Or.inl ⟨rfl, rfl, rfl⟩, not_lt.mp h'', not_lt.mp h', ?_⟩
    rw [sum3, dif_neg h, dif_neg h', dif_neg h'']

theorem sum3_exact (a b c : K) : sum3 (· + ·) a b c = a + b + c := by
  obtain ⟨x, y, z, hp, -, -, he⟩ := sum3_descending (· + ·) a b c
  rw [he]
  rcases hp with h | h | h | h | h | h <;> obtain ⟨rfl, rfl, rfl⟩ := h <;> ring

/-! ## Shared facts about the tables -/

theorem exactSqrt_real : ExactSqrt Real.sqrt :=
  fun x hx => ⟨Real.sqrt_nonneg x, Real.mul_self_sqrt hx⟩

theorem per_face_normals_getElem? (sqrt : K → K) (V : Fin n → Vec3 K) (F : List (Face n))
    (Z : Vec3 K) (i : Nat) :
    (per_face_normals sqrt V F Z)[i]? = (F[i]?).map (faceNormal sqrt V Z) := by
  simp [per_face_normals]

theorem per_face_normals_stable_getElem? (add : K → K → K) (sqrt : K → K)
    (V : Fin n → Vec3 K) (F : List (Face n)) (i : Nat) :
    (per_face_normals_stable add sqrt V F)[i]? = (F[i]?).map (stableNormal add sqrt V) := by
  simp [per_face_normals_stable]

theorem faceNormal_of_ne_zero {sqrt : K → K} (hs : ExactSqrt sqrt) (V : Fin n → Vec3 K)
    (Z : Vec3 K) {f : Face n} (h : rawNormal V f ≠ 0) :
    faceNormal sqrt V Z f
      = Vec3.divScalar (rawNormal V f) (Vec3.norm sqrt (rawNormal V f)) := by
  have hr : Vec3.norm sqrt (rawNormal V f) ≠ 0 := fun e => h ((norm_eq_zero_iff hs _).mp e)
  simp only [faceNormal, if_neg hr]

theorem faceNormal_of_eq_zero {sqrt : K → K} (hs : ExactSqrt sqrt) (V : Fin n → Vec3 K)
    (Z : Vec3 K) {f : Face n} (h : rawNormal V f = 0) : faceNormal sqrt V Z f = Z := by
  have hr : Vec3.norm sqrt (rawNormal V f) = 0 := (norm_eq_zero_iff hs _).mpr h
  simp only [faceNormal, if_pos hr]

theorem rawNormal_triangle : rawNormal (triangleV K) face012 = ⟨0, 0, 1⟩ := by
  ext <;> simp [rawNormal, triangleV, face012, Vec3.cross]

theorem rawNormal_collinear : rawNormal (collinearV K) face012 = 0 := by
  ext <;> simp [rawNormal, collinearV, face012, Vec3.cross]

theorem collinear_collinearV :
    Collinear (collinearV K face012.i0) (collinearV K face012.i1) (collinearV K face012.i2) :=
  collinear_of_cross_eq_zero rawNormal_collinear

theorem stableRaw_exact (V : Fin n → Vec3 K) (f : Face n) :
    stableRaw (· + ·) V f = Vec3.scale 3 (rawNormal V f) := by
  obtain ⟨h1, h2⟩ := candidates_eq V f
  have h0 : (candidates V f).1 = rawNormal V f := rfl
  simp only [stableRaw, sum3_exact, h1, h2, h0, Vec3.coeff, Vec3.scale]
  ext <;> simp only <;> ring

theorem rawNormal_triangle_ne_zero : rawNormal (triangleV K) face012 ≠ 0 := by
  rw [rawNormal_triangle]
  intro h
  have hz := congrArg Vec3.z h
  simp at hz

theorem neg_eq_self_iff_zero (Z : Vec3 K) : Z = -Z ↔ Z = 0 := by
  rw [Vec3.eq_zero_iff]
  constructor
  · intro h
    have hx := congrArg Vec3.x h
    have hy := congrArg Vec3.y h
    have hz := congrArg Vec3.z h
    simp only [Vec3.neg_x, Vec3.neg_y, Vec3.neg_z] at hx hy hz
    exact ⟨by linarith, by linarith, by linarith⟩
  · rintro ⟨h1, h2, h3⟩
    ext <;> simp [h1, h2, h3]

theorem faceNormal_swap_of_ne_zero {sqrt : K → K} (hs : ExactSqrt sqrt) (V : Fin n → Vec3 K)
    (Z : Vec3 K) (i0 i1 i2 : Fin n) (h : rawNormal V ⟨i0, i1, i2⟩ ≠ 0) :
    faceNormal sqrt V Z ⟨i0, i2, i1⟩ = -faceNormal sqrt V Z ⟨i0, i1, i2⟩ := by
  have h' : rawNormal V ⟨i0, i2, i1⟩ ≠ 0 := by
    rw [rawNormal_swap]
    intro e
    apply h
    rw [Vec3.eq_zero_iff] at e ⊢
    simpa using e
  rw [faceNormal_of_ne_zero hs V Z h, faceNormal_of_ne_zero hs V Z h', rawNormal_swap,
    Vec3.norm_neg, Vec3.divScalar_neg]

theorem sum3_satAdd_example : sum3 (satAdd (4 : ℚ)) (-1) 2 3 = 3 := by
  rw [sum3, dif_pos (by norm_num), sum3, dif_neg (by norm_num), dif_neg (by norm_num),
    dif_neg (by norm_num)]
  norm_num [satAdd]

theorem sum3Calls_sorted {a b c : K} (h1 : |c| ≤ |a|) (h2 : |c| ≤ |b|) (h3 : |b| ≤ |a|) :
    sum3Calls a b c = 0 := by
  rw [sum3Calls, dif_neg (not_lt.mpr h1), dif_neg (not_lt.mpr h2), dif_neg (not_lt.mpr h3)]

theorem sum3Calls_eq_zero_iff (a b c : K) :
    sum3Calls a b c = 0 ↔ |b| ≤ |a| ∧ |c| ≤ |a| ∧ |c| ≤ |b| := by
  constructor
  · intro h
    rw [sum3Calls] at h
    split_ifs at h with h1 h2 h3
    exact ⟨not_lt.mp h3, not_lt.mp h1, not_lt.mp h2⟩
  · rintro ⟨h3, h1, h2⟩
    exact sum3Calls_sorted h1 h2 h3

theorem sum3Calls_le_two (a b c : K) : sum3Calls a b c ≤ 2 := by
  rw [sum3Calls]
  split_ifs <;> (try omega) <;> rw [sum3Calls] <;> split_ifs <;> (try omega) <;>
    (try (exfalso; linarith)) <;> rw [sum3Calls] <;> split_ifs <;>
    first | omega | (exfalso; linarith)

theorem sum3Fuel_of_calls_lt (add : K → K → K) (a b c : K) :
    ∀ fuel : Nat, sum3Calls a b c < fuel → sum3Fuel add fuel a b c = some (sum3 add a b c) := by
  induction a, b, c using sum3.induct add with
  | case1 a b c h ih =>
    intro fuel hk
    rw [sum3Calls, dif_pos h] at hk
    obtain ⟨k, rfl⟩ : ∃ k, fuel = k + 1 := ⟨fuel - 1, by omega⟩
    rw [sum3Fuel, if_pos h, sum3, dif_pos h]
    exact ih k (by omega)
  | case2 a b c h h' ih =>
    intro fuel hk
    rw [sum3Calls, dif_neg h, dif_pos h'] at hk
    obtain ⟨k, rfl⟩ : ∃ k, fuel = k + 1 := ⟨fuel - 1, by omega⟩
    rw [sum3Fuel, if_neg h, if_pos h', sum3, dif_neg h, dif_pos h']
    exact ih k (by omega)
  | case3 a b c h h' h'' ih =>
    intro fuel hk
    rw [sum3Calls, dif_neg h, dif_neg h', dif_pos h''] at hk
    obtain ⟨k, rfl⟩ : ∃ k, fuel = k + 1 := ⟨fuel - 1, by omega⟩
    rw [sum3Fuel, if_neg h, if_neg h', if_pos h'', sum3, dif_neg h, dif_neg h', dif_pos h'']
    exact ih k (by omega)
  | case4 a b c h h' h'' =>
    intro fuel hk
    obtain ⟨k, rfl⟩ : ∃ k, fuel = k + 1 := ⟨fuel - 1, by omega⟩
    rw [sum3Fuel, if_neg h, if_neg h', if_neg h'', sum3, dif_neg h, dif_neg h', dif_neg h'']

/-! ## Further facts about the two paths -/

theorem rawNormal_eq_zero_iff_collinear (V : Fin n → Vec3 K) (f : Face n) :
    rawNormal V f = 0 ↔ Collinear (V f.i0) (V f.i1) (V f.i2) :=
  ⟨collinear_of_cross_eq_zero, cross_eq_zero_of_collinear⟩

theorem rawNormal_translate (t : Vec3 K) (V : Fin n → Vec3 K) (f : Face n) :
    rawNormal (translate t V) f = rawNormal V f := by
  ext <;> simp [rawNormal, translate, Vec3.cross]

theorem faceNormal_translate (sqrt : K → K) (t : Vec3 K) (V : Fin n → Vec3 K) (Z : Vec3 K)
    (f : Face n) : faceNormal sqrt (translate t V) Z f = faceNormal sqrt V Z f := by
  simp only [faceNormal, rawNormal_translate]

theorem faceNormal_congr {m : Nat} (sqrt : K → K) (V : Fin n → Vec3 K) (W : Fin m → Vec3 K)
    (Z : Vec3 K) (f : Face n) (g : Face m) (h0 : V f.i0 = W g.i0) (h1 : V f.i1 = W g.i1)
    (h2 : V f.i2 = W g.i2) : faceNormal sqrt V Z f = faceNormal sqrt W Z g := by
  simp only [faceNormal, rawNormal, h0, h1, h2]

theorem stableNormal_congr {m : Nat} (add : K → K → K) (sqrt : K → K) (V : Fin n → Vec3 K)
    (W : Fin m → Vec3 K) (f : Face n) (g : Face m) (h0 : V f.i0 = W g.i0)
    (h1 : V f.i1 = W g.i1) (h2 : V f.i2 = W g.i2) :
    stableNormal add sqrt V f = stableNormal add sqrt W g := by
  simp only [stableNormal, stableRaw, candidates, h0, h1, h2]

/-! ## The fast path in machine arithmetic -/

theorem per_face_normals_arith_exact (sqrt : K → K) (V : Fin n → Vec3 K) (F : List (Face n))
    (Z : Vec3 K) :
    per_face_normals_arith (exactArith sqrt) V F Z = per_face_normals sqrt V F Z := rfl

theorem faceNormal_swap_of_norm_ne_zero (sqrt : K → K) (V : Fin n → Vec3 K) (Z : Vec3 K)
    (i0 i1 i2 : Fin n) (h : Vec3.norm sqrt (rawNormal V ⟨i0, i1, i2⟩) ≠ 0) :
    faceNormal sqrt V Z ⟨i0, i2, i1⟩ = -faceNormal sqrt V Z ⟨i0, i1, i2⟩ := by
  have h' : Vec3.norm sqrt (rawNormal V ⟨i0, i2, i1⟩) ≠ 0 := by
    rw [rawNormal_swap, Vec3.norm_neg]; exact h
  simp only [faceNormal, if_neg h, if_neg h']
  rw [rawNormal_swap, Vec3.norm_neg, Vec3.divScalar_neg]

theorem faceNormal_swap_of_norm_eq_zero (sqrt : K → K) (V : Fin n → Vec3 K) (Z : Vec3 K)
    (i0 i1 i2 : Fin n) (h : Vec3.norm sqrt (rawNormal V ⟨i0, i1, i2⟩) = 0) :
    faceNormal sqrt V Z ⟨i0, i2, i1⟩ = Z ∧ faceNormal sqrt V Z ⟨i0, i1, i2⟩ = Z := by
  have h' : Vec3.norm sqrt (rawNormal V ⟨i0, i2, i1⟩) = 0 := by
    rw [rawNormal_swap, Vec3.norm_neg]; exact h
  simp only [faceNormal, if_pos h, if_pos h', and_self]

/-- Claim C1: row `f` of the fast path's output is computed from row `f` of
the face table by the specification's formula: with `r` the cross product of
the two edges leaving the first vertex and `len` its norm, the row is `Z`
when `len = 0` and `r / len` otherwise. -/
theorem per_face_normals_reference (sqrt : K → K) (V : Fin n → Vec3 K)
    (F : List (Face n)) (Z : Vec3 K) (f : Nat) :
    (per_face_normals sqrt V F Z)[f]?
      = (F[f]?).map (fun t => specFaceNormal sqrt (V t.i0) (V t.i1) (V t.i2) Z) := by
  rw [per_face_normals_getElem?]
  rfl

/-- Claim C2: the fast path (with or without an explicit fallback) and the
stable path return a table with exactly as many rows as `F`, and the empty
table when `F` has no rows. -/
theorem row_count_eq (add : K → K → K) (sqrt : K → K) (V : Fin n → Vec3 K)
    (F : List (Face n)) (Z : Vec3 K) :
    (per_face_normals sqrt V F Z).length = F.length ∧
    (per_face_normals_default sqrt V F).length = F.length ∧
    (per_face_normals_stable add sqrt V F).length = F.length ∧
    per_face_normals sqrt V [] Z = [] ∧
    per_face_normals_default sqrt V [] = [] ∧
    per_face_normals_stable add sqrt V [] = [] := by
  simp [per_face_normals, per_face_normals_default, per_face_normals_stable]

/-- Claim C3: with an exact square root, every row of the fast path's output
has Euclidean length 1 or equals the fallback `Z`, and the row of a face
whose raw cross product is non-zero has length 1. -/
theorem unit_or_fallback {sqrt : K → K} (hs : ExactSqrt sqrt) (V : Fin n → Vec3 K)
    (F : List (Face n)) (Z : Vec3 K) :
    (∀ N ∈ per_face_normals sqrt V F Z, Vec3.norm sqrt N = 1 ∨ N = Z) ∧
    (∀ (i : Nat) (f : Face n), F[i]? = some f → rawNormal V f ≠ 0 →
      ∃ N, (per_face_normals sqrt V F Z)[i]? = some N ∧ Vec3.norm sqrt N = 1) := by
  constructor
  · intro N hN
    obtain ⟨f, -, rfl⟩ := List.mem_map.mp hN
    by_cases h : rawNormal V f = 0
    · exact Or.inr (faceNormal_of_eq_zero hs V Z h)
    · left
      rw [faceNormal_of_ne_zero hs V Z h]
      exact norm_divScalar_norm hs h
  · intro i f hf h
    refine ⟨faceNormal sqrt V Z f, ?_, ?_⟩
    · rw [per_face_normals_getElem?, hf]; rfl
    · rw [faceNormal_of_ne_zero hs V Z h]
      exact norm_divScalar_norm hs h

/-- Witness of `unit_or_fallback` on the triangle `(0,0,0), (1,0,0), (0,1,0)`
over the reals. -/
theorem unit_or_fallback_witness :
    ExactSqrt Real.sqrt ∧
    (∀ N ∈ per_face_normals Real.sqrt (triangleV ℝ) [face012] ⟨7, 7, 7⟩,
      Vec3.norm Real.sqrt N = 1 ∨ N = ⟨7, 7, 7⟩) ∧
    ∃ N, (per_face_normals Real.sqrt (triangleV ℝ) [face012] ⟨7, 7, 7⟩)[0]? = some N ∧
      Vec3.norm Real.sqrt N = 1 :=
  ⟨exactSqrt_real,
    (unit_or_fallback exactSqrt_real (triangleV ℝ) [face012] ⟨7, 7, 7⟩).1,
    (unit_or_fallback exactSqrt_real (triangleV ℝ) [face012] ⟨7, 7, 7⟩).2 0 face012 rfl
      rawNormal_triangle_ne_zero⟩

/-- Claim C5: for the single triangle with vertices `(0,0,0), (1,0,0), (0,1,0)`
and face `(0,1,2)` the fast path's normal is exactly `(0,0,1)`, for any square
root with `sqrt 1 = 1`, with or without an explicit fallback. -/
theorem single_triangle_normal (sqrt : K → K) (h1 : sqrt 1 = 1) (Z : Vec3 K) :
    per_face_normals sqrt (triangleV K) [face012] Z = [⟨0, 0, 1⟩] ∧
    per_face_normals_default sqrt (triangleV K) [face012] = [⟨0, 0, 1⟩] := by
  have key : ∀ Z : Vec3 K, faceNormal sqrt (triangleV K) Z face012 = ⟨0, 0, 1⟩ := by
    intro Z
    simp [faceNormal, rawNormal_triangle, Vec3.norm, Vec3.squaredNorm, h1, Vec3.divScalar]
  simp [per_face_normals, per_face_normals_default, key]

/-- Witness of `single_triangle_normal` over the reals with the real square
root. -/
theorem single_triangle_normal_witness :
    Real.sqrt 1 = 1 ∧
    per_face_normals Real.sqrt (triangleV ℝ) [face012] ⟨0, 0, 0⟩ = [⟨0, 0, 1⟩] :=
  ⟨Real.sqrt_one, (single_triangle_normal Real.sqrt Real.sqrt_one ⟨0, 0, 0⟩).1⟩

/-- Counterexample to claim C6 as stated: on the collinear vertices
`(0,0,0), (1,0,0), (2,0,0)` with fallback `(0,0,1)` both windings of the face
get the fallback, so the normal of `(0,2,1)` is not the negation of the normal
of `(0,1,2)`. -/
theorem winding_reversal_fallback_counterexample :
    per_face_normals Real.sqrt (collinearV ℝ) [face021] ⟨0, 0, 1⟩
      ≠ (per_face_normals Real.sqrt (collinearV ℝ) [face012] ⟨0, 0, 1⟩).map (fun N => -N) := by
  have h1 : rawNormal (collinearV ℝ) face012 = 0 := rawNormal_collinear
  have h2 : rawNormal (collinearV ℝ) face021 = 0 := by
    have := rawNormal_swap (collinearV ℝ) 0 1 2
    rw [show (⟨0, 1, 2⟩ : Face 3) = face012 from rfl, h1] at this
    rw [show face021 = (⟨0, 2, 1⟩ : Face 3) from rfl, this]
    ext <;> simp
  simp only [per_face_normals, List.map_cons, List.map_nil,
    faceNormal_of_eq_zero exactSqrt_real _ _ h1, faceNormal_of_eq_zero exactSqrt_real _ _ h2]
  intro h
  have := congrArg Vec3.z (List.head_eq_of_cons_eq h)
  simp only [Vec3.neg_z] at this
  norm_num at this

/-- Claim C6, amended: for any square root, the fast path's normal of the
face `(i0,i2,i1)` is the negation of its normal of `(i0,i1,i2)` exactly when
the length `r` computed for the raw cross product is non-zero or the fallback
`Z` is the zero vector; when `r == 0` both windings get `Z`.  With an exact
square root `r` is non-zero exactly when the raw cross product is. -/
theorem winding_reversal_fast (sqrt : K → K) (V : Fin n → Vec3 K)
    (i0 i1 i2 : Fin n) (Z : Vec3 K) :
    (per_face_normals sqrt V [⟨i0, i2, i1⟩] Z
        = (per_face_normals sqrt V [⟨i0, i1, i2⟩] Z).map (fun N => -N)
      ↔ (Vec3.norm sqrt (rawNormal V ⟨i0, i1, i2⟩) ≠ 0 ∨ Z = 0)) ∧
    (Vec3.norm sqrt (rawNormal V ⟨i0, i1, i2⟩) = 0 →
      per_face_normals sqrt V [⟨i0, i2, i1⟩] Z = [Z] ∧
      per_face_normals sqrt V [⟨i0, i1, i2⟩] Z = [Z]) ∧
    (ExactSqrt sqrt →
      (Vec3.norm sqrt (rawNormal V ⟨i0, i1, i2⟩) ≠ 0 ↔ rawNormal V ⟨i0, i1, i2⟩ ≠ 0)) := by
  simp only [per_face_normals, List.map_cons, List.map_nil, List.cons.injEq, and_true]
  refine ⟨?_, faceNormal_swap_of_norm_eq_zero sqrt V Z i0 i1 i2,
    fun hs => not_congr (norm_eq_zero_iff hs _)⟩
  by_cases h : Vec3.norm sqrt (rawNormal V ⟨i0, i1, i2⟩) = 0
  · obtain ⟨e1, e2⟩ := faceNormal_swap_of_norm_eq_zero sqrt V Z i0 i1 i2 h
    rw [e1, e2, neg_eq_self_iff_zero]
    simp [h]
  · simp only [ne_eq, h, not_false_eq_true, true_or, iff_true]
    exact faceNormal_swap_of_norm_ne_zero sqrt V Z i0 i1 i2 h

/-- Witness of `winding_reversal_fast` on the triangle
`(0,0,0), (1,0,0), (0,1,0)` over the reals, where the face is not degenerate. -/
theorem winding_reversal_fast_witness :
    ExactSqrt Real.sqrt ∧ rawNormal (triangleV ℝ) ⟨0, 1, 2⟩ ≠ 0 ∧
    per_face_normals Real.sqrt (triangleV ℝ) [⟨0, 2, 1⟩] ⟨7, 7, 7⟩
      = (per_face_normals Real.sqrt (triangleV ℝ) [⟨0, 1, 2⟩] ⟨7, 7, 7⟩).map (fun N => -N) :=
  ⟨exactSqrt_real, rawNormal_triangle_ne_zero,
    (winding_reversal_fast Real.sqrt (triangleV ℝ) 0 1 2 ⟨7, 7, 7⟩).1.mpr
      (Or.inl (((winding_reversal_fast Real.sqrt (triangleV ℝ) 0 1 2 ⟨7, 7, 7⟩).2.2
        exactSqrt_real).mpr rawNormal_triangle_ne_zero))⟩

/-- Claim C7: the three-argument overload returns exactly what the
four-argument function returns for `Z = (0,0,0)`. -/
theorem default_overload_eq (sqrt : K → K) (V : Fin n → Vec3 K) (F : List (Face n)) :
    per_face_normals_default sqrt V F = per_face_normals sqrt V F ⟨0, 0, 0⟩ := by
  rfl

/-- Claim C8: with an exact square root and exact addition, for a face whose
raw cross product is non-zero the stable path returns, in the same row, the
normal the fast path returns. -/
theorem stable_eq_fast {sqrt : K → K} (hs : ExactSqrt sqrt) (V : Fin n → Vec3 K)
    (F : List (Face n)) (Z : Vec3 K) (i : Nat) (f : Face n) (hf : F[i]? = some f)
    (hnd : rawNormal V f ≠ 0) :
    ∃ N : Vec3 K, (per_face_normals sqrt V F Z)[i]? = some N ∧
      (per_face_normals_stable (· + ·) sqrt V F)[i]? = some (some N) := by
  refine ⟨faceNormal sqrt V Z f, ?_, ?_⟩
  · rw [per_face_normals_getElem?, hf]; rfl
  · rw [per_face_normals_stable_getElem?, hf, Option.map_some']
    have hr : Vec3.norm sqrt (rawNormal V f) ≠ 0 := fun e => hnd ((norm_eq_zero_iff hs _).mp e)
    have h3 : Vec3.norm sqrt (Vec3.scale 3 (rawNormal V f))
        = 3 * Vec3.norm sqrt (rawNormal V f) := norm_scale hs (by norm_num) _
    have hne : (3 : K) * Vec3.norm sqrt (rawNormal V f) ≠ 0 :=
      mul_ne_zero (by norm_num) hr
    simp only [stableNormal, stableRaw_exact, h3, if_neg hne,
      faceNormal_of_ne_zero hs V Z hnd]
    congr 2
    ext <;> simp only [Vec3.divScalar, Vec3.scale] <;>
      exact mul_div_mul_left _ _ (by norm_num)

/-- Witness of `stable_eq_fast` on the triangle `(0,0,0), (1,0,0), (0,1,0)`
over the reals. -/
theorem stable_eq_fast_witness :
    ExactSqrt Real.sqrt ∧ [face012][0]? = some face012 ∧
    rawNormal (triangleV ℝ) face012 ≠ 0 ∧
    ∃ N : Vec3 ℝ, (per_face_normals Real.sqrt (triangleV ℝ) [face012] ⟨0, 0, 0⟩)[0]? = some N ∧
      (per_face_normals_stable (· + ·) Real.sqrt (triangleV ℝ) [face012])[0]?
        = some (some N) :=
  ⟨exactSqrt_real, rfl, rawNormal_triangle_ne_zero,
    stable_eq_fast exactSqrt_real (triangleV ℝ) [face012] ⟨0, 0, 0⟩ 0 face012 rfl
      rawNormal_triangle_ne_zero⟩

/-- Counterexample to claim C9 as stated: with the saturating addition on
`[-4, 4]`, `sum3(-1, 2, 3)` evaluates `(3 + 2) + (-1) = 3`, which is not
`(s + m) + l` for any rearrangement with `|s| ≤ |m| ≤ |l|` (the only one is
`(-1, 2, 3)`, giving `(-1 + 2) + 3 = 4`). -/
theorem sum3_smallest_first_counterexample :
    ¬ ∃ s m l : ℚ, Perm3 s m l (-1) 2 3 ∧ |s| ≤ |m| ∧ |m| ≤ |l| ∧
      sum3 (satAdd 4) (-1) 2 3 = satAdd 4 (satAdd 4 s m) l := by
  rintro ⟨s, m, l, hp, h1, h2, he⟩
  rw [sum3_satAdd_example] at he
  rcases hp with h | h | h | h | h | h <;> obtain ⟨rfl, rfl, rfl⟩ := h <;>
    norm_num [satAdd] at h1 h2 he

/-- Claim C9, amended: for every addition and all scalars `a`, `b`, `c`,
`sum3(a,b,c)` returns `(l + m) + s` where `(l, m, s)` is a rearrangement of
`(a, b, c)` with `|s| ≤ |m| ≤ |l|`: the two operands of largest absolute
value are added first and the operand of smallest absolute value last. -/
theorem sum3_largest_first (add : K → K → K) (a b c : K) :
    ∃ l m s : K, Perm3 l m s a b c ∧ |s| ≤ |m| ∧ |m| ≤ |l| ∧
      sum3 add a b c = add (add l m) s := by
  obtain ⟨x, y, z, hp, h1, h2, he⟩ := sum3_descending add a b c
  exact ⟨x, y, z, hp, h2, h1, he⟩

/-- Claim C11: the three candidate normals of the stable path coincide: for
all points `p0`, `p1`, `p2`,
`(p1 - p0) × (p2 - p0) = (p2 - p1) × (p0 - p1) = (p0 - p2) × (p1 - p2)`,
and so do `n0`, `n1`, `n2` of every face. -/
theorem candidate_normals_coincide (p0 p1 p2 : Vec3 K) (V : Fin n → Vec3 K) (f : Face n) :
    (Vec3.cross (p1 - p0) (p2 - p0) = Vec3.cross (p2 - p1) (p0 - p1) ∧
      Vec3.cross (p2 - p1) (p0 - p1) = Vec3.cross (p0 - p2) (p1 - p2)) ∧
    ((candidates V f).1 = (candidates V f).2.1 ∧
      (candidates V f).2.1 = (candidates V f).2.2) := by
  have key : ∀ q0 q1 q2 : Vec3 K,
      Vec3.cross (q1 - q0) (q2 - q0) = Vec3.cross (q2 - q1) (q0 - q1) ∧
      Vec3.cross (q2 - q1) (q0 - q1) = Vec3.cross (q0 - q2) (q1 - q2) := by
    intro q0 q1 q2
    constructor <;> ext <;> simp [Vec3.cross] <;> ring
  exact ⟨key p0 p1 p2, key (V f.i0) (V f.i1) (V f.i2)⟩

/-- Claim C13: a row of the output depends only on the three vertices read
for that row.  If two inputs have the same number of faces, row `i` of their
face tables holds the same three indices, and the vertex tables agree on
these three rows, then the fast path (same fallback `Z`) and the stable path
return the same row `i` for both inputs. -/
theorem per_face_independence {m : Nat} (add : K → K → K) (sqrt : K → K)
    (V : Fin n → Vec3 K) (W : Fin m → Vec3 K) (F : List (Face n)) (G : List (Face m))
    (Z : Vec3 K) (i : Nat) (f : Face n) (g : Face m)
    (_hlen : F.length = G.length) (hf : F[i]? = some f) (hg : G[i]? = some g)
    (_hi : (f.i0 : Nat) = g.i0 ∧ (f.i1 : Nat) = g.i1 ∧ (f.i2 : Nat) = g.i2)
    (hv : V f.i0 = W g.i0 ∧ V f.i1 = W g.i1 ∧ V f.i2 = W g.i2) :
    (per_face_normals sqrt V F Z)[i]? = (per_face_normals sqrt W G Z)[i]? ∧
    (per_face_normals_stable add sqrt V F)[i]?
      = (per_face_normals_stable add sqrt W G)[i]? := by
  obtain ⟨h0, h1, h2⟩ := hv
  constructor
  · rw [per_face_normals_getElem?, per_face_normals_getElem?, hf, hg, Option.map_some',
      Option.map_some', faceNormal_congr sqrt V W Z f g h0 h1 h2]
  · rw [per_face_normals_stable_getElem?, per_face_normals_stable_getElem?, hf, hg,
      Option.map_some', Option.map_some', stableNormal_congr add sqrt V W f g h0 h1 h2]

/-- Witness of `per_face_independence`: row 0 of the tables
`[(0,1,2), (0,2,1)]` over three vertices and `[(0,1,2), (3,3,3)]` over four,
the first three vertices being the same. -/
theorem per_face_independence_witness :
    (per_face_normals Real.sqrt (triangleV ℝ) [face012, face021] ⟨7, 7, 7⟩)[0]?
      = (per_face_normals Real.sqrt (extendedV ℝ) [⟨0, 1, 2⟩, ⟨3, 3, 3⟩] ⟨7, 7, 7⟩)[0]? ∧
    (per_face_normals_stable (· + ·) Real.sqrt (triangleV ℝ) [face012, face021])[0]?
      = (per_face_normals_stable (· + ·) Real.sqrt (extendedV ℝ) [⟨0, 1, 2⟩, ⟨3, 3, 3⟩])[0]? :=
  per_face_independence (· + ·) Real.sqrt (triangleV ℝ) (extendedV ℝ) [face012, face021]
    [⟨0, 1, 2⟩, ⟨3, 3, 3⟩] ⟨7, 7, 7⟩ 0 face012 ⟨0, 1, 2⟩ rfl rfl rfl ⟨rfl, rfl, rfl⟩
    ⟨rfl, rfl, rfl⟩

/-- Claim C15: the recursion of `sum3` ends on every triple of scalars, ties
in absolute value included: it makes at most 3 recursive invocations before
the base case `(a+b)+c`, so a call chain of depth 4 (and any larger depth)
returns the value of `sum3`. -/
theorem sum3_terminates (add : K → K → K) (a b c : K) :
    sum3Calls a b c ≤ 3 ∧
    ∀ fuel : Nat, sum3Fuel add (fuel + 4) a b c = some (sum3 add a b c) := by
  have h := sum3Calls_le_two a b c
  exact ⟨by omega, fun fuel => sum3Fuel_of_calls_lt add a b c (fuel + 4) (by omega)⟩

/-- Claim C16: for every addition, `sum3(a,b,c)` returns `(x + y) + z` for a
rearrangement `(x, y, z)` of `(a, b, c)` with `|x| ≥ |y| ≥ |z|`; the base case
is reached without a recursive call exactly when no later argument is strictly
larger in absolute value than an earlier one; with exact addition
`sum3(a,b,c) = a + b + c`. -/
theorem sum3_evaluates (add : K → K → K) (a b c : K) :
    (∃ x y z : K, Perm3 x y z a b c ∧ |x| ≥ |y| ∧ |y| ≥ |z| ∧
      sum3 add a b c = add (add x y) z) ∧
    (sum3Calls a b c = 0 ↔ |b| ≤ |a| ∧ |c| ≤ |a| ∧ |c| ≤ |b|) ∧
    sum3 (· + ·) a b c = a + b + c :=
  ⟨sum3_descending add a b c, sum3Calls_eq_zero_iff a b c, sum3_exact a b c⟩

/-- Claim C18: adding an offset `t` to every vertex does not change the table
the fast path returns, with or without an explicit fallback and for any
square root; with an exact square root the faces with collinear or coincident
vertices still get `Z`. -/
theorem translation_invariant (sqrt : K → K) (V : Fin n → Vec3 K) (F : List (Face n))
    (Z t : Vec3 K) :
    per_face_normals sqrt (translate t V) F Z = per_face_normals sqrt V F Z ∧
    per_face_normals_default sqrt (translate t V) F = per_face_normals_default sqrt V F ∧
    (ExactSqrt sqrt → ∀ (i : Nat) (f : Face n), F[i]? = some f →
      Collinear (V f.i0) (V f.i1) (V f.i2) →
      (per_face_normals sqrt (translate t V) F Z)[i]? = some Z) := by
  have key : ∀ Z : Vec3 K,
      per_face_normals sqrt (translate t V) F Z = per_face_normals sqrt V F Z := by
    intro Z
    have hrow : faceNormal sqrt (translate t V) Z = faceNormal sqrt V Z :=
      funext (faceNormal_translate sqrt t V Z)
    simp only [per_face_normals, hrow]
  refine ⟨key Z, ?_, ?_⟩
  · simp only [per_face_normals_default, key]
  · intro hs i f hf hc
    rw [key, per_face_normals_getElem?, hf, Option.map_some',
      faceNormal_of_eq_zero hs V Z ((rawNormal_eq_zero_iff_collinear V f).mpr hc)]

/-- Witness of `translation_invariant` over the reals: the collinear vertices
`(0,0,0), (1,0,0), (2,0,0)` moved by `(1, 2, 3)`. -/
theorem translation_invariant_witness :
    ExactSqrt Real.sqrt ∧
    Collinear (collinearV ℝ face012.i0) (collinearV ℝ face012.i1) (collinearV ℝ face012.i2) ∧
    (per_face_normals Real.sqrt (translate ⟨1, 2, 3⟩ (collinearV ℝ)) [face012] ⟨7, 7, 7⟩)[0]?
      = some ⟨7, 7, 7⟩ :=
  ⟨exactSqrt_real, collinear_collinearV,
    (translation_invariant Real.sqrt (collinearV ℝ) [face012] ⟨7, 7, 7⟩ ⟨1, 2, 3⟩).2.2
      exactSqrt_real 0 face012 rfl collinear_collinearV⟩

end Igl
